import Mathlib

/-!
Verification of the return-analytics engine of the LiveData dashboard
(`src/pages/05_Gold.py` and `src/pages/03_📊_HHIS.py`, with the CSV variant
`src/pages/03_🔎_Stock_Analysis.py`).

The pandas pipeline is shallowly embedded over exact rationals:

* a price column is a `List ℚ` (already cleaned of missing rows, as the
  pages do with `dropna(subset=["price"])` before any analytics);
* a pandas column that may hold NaN is a `List (Option ℚ)`, `none`
  standing for NaN;
* `pct_change`, `dropna`, `cumprod`, `cummax`, `rolling(w).apply`,
  `shift(-L)`, `idxmin` / `idxmax`, `quantile` / `np.percentile`,
  `resample("M")` and `groupby` are modelled by the list functions below,
  following the documented pandas/numpy semantics (first `pct_change`
  entry is NaN; `rolling` with default `min_periods` yields NaN unless
  the window holds `w` non-NaN values; `idxmin` / `idxmax` return the
  first index attaining the extremum; `quantile` interpolates linearly
  between order statistics).

All arithmetic is exact in `ℚ`; statements that the spec phrases as
"within floating-point tolerance" are proved as exact identities, which
is the idealisation of the float computation.
-/

namespace LiveData

/-- Model of `Series.pct_change()` on a price column: the first entry is NaN
(`none`), entry `i ≥ 1` is `price_i / price_{i-1} - 1`. -/
def pctChange (ps : List ℚ) : List (Option ℚ) :=
  match ps with
  | [] => []
  | p :: tl => none :: List.zipWith (fun a b => some (b / a - 1)) (p :: tl) tl

/-- Model of `Series.dropna()`: keep the non-NaN values, in order. -/
def dropNone (s : List (Option ℚ)) : List ℚ :=
  s.filterMap id

/-- The Return Series Builder of both analysis pages:
`returns = prices.pct_change().dropna()`
(`Ticker_Price_log["Return"]` in the HHIS page, `Gold_History_Table["ret"]`
in the Gold page). -/
def buildReturns (ps : List ℚ) : List ℚ :=
  dropNone (pctChange ps)

/-- Compounded growth `Π (1 + r_i)` of a return list. -/
def prodOnePlus (rs : List ℚ) : ℚ :=
  (rs.map (fun r => 1 + r)).prod

theorem buildReturns_cons (p q : ℚ) (tl : List ℚ) :
    buildReturns (p :: q :: tl) = (q / p - 1) :: buildReturns (q :: tl) := by
  simp [buildReturns, pctChange, dropNone, List.zipWith]

theorem buildReturns_length (ps : List ℚ) :
    (buildReturns ps).length = ps.length - 1 := by
  match ps with
  | [] => simp [buildReturns, pctChange, dropNone]
  | [p] => simp [buildReturns, pctChange, dropNone]
  | p :: q :: tl =>
    rw [buildReturns_cons]
    simp only [List.length_cons]
    rw [buildReturns_length (q :: tl)]
    simp

theorem prodOnePlus_buildReturns (ps : List ℚ) (hne : ps ≠ [])
    (hnz : ∀ p ∈ ps, p ≠ 0) :
    prodOnePlus (buildReturns ps) = ps.getLast hne / ps.head hne := by
  match ps with
  | [p] =>
    have hp : p ≠ 0 := hnz p (by simp)
    simp [buildReturns, pctChange, dropNone, prodOnePlus, List.getLast,
      div_self hp]
  | p :: q :: tl =>
    have hp : p ≠ 0 := hnz p (by simp)
    have hq : q ≠ 0 := hnz q (by simp)
    have htl : ∀ x ∈ q :: tl, x ≠ 0 := fun x hx => hnz x (List.mem_cons_of_mem p hx)
    have ih := prodOnePlus_buildReturns (q :: tl) (by simp) htl
    rw [buildReturns_cons]
    have hstep : prodOnePlus ((q / p - 1) :: buildReturns (q :: tl)) =
        (q / p) * prodOnePlus (buildReturns (q :: tl)) := by
      simp [prodOnePlus]
    rw [hstep, ih]
    have hlast : (p :: q :: tl).getLast (by simp) = (q :: tl).getLast (by simp) := by
      simp [List.getLast]
    rw [hlast]
    have hhead : (p :: q :: tl).head (by simp) = p := rfl
    have hhead2 : (q :: tl).head (by simp) = q := rfl
    rw [hhead, hhead2]
    field_simp
    ring

/-- C3 (counterexample): on a one-point PriceSeries the Return Series
Builder of the source is a total function returning the empty return
list (`pct_change` yields a single NaN which `dropna` removes); no
exception of any kind — in particular no `InsufficientDataError`, a type
that exists nowhere in the repository — is raised. -/
theorem buildReturns_single_point_empty :
    buildReturns [100] = [] := by
  rfl

/-- C3 (amended): a PriceSeries with fewer than 2 points yields an empty
ReturnSeries; the pages then test emptiness (`returns.empty`) and render
a warning instead of raising a typed error. -/
theorem buildReturns_short_input_empty (ps : List ℚ) (h : ps.length < 2) :
    buildReturns ps = [] := by
  match ps with
  | [] => rfl
  | [p] => rfl
  | p :: q :: tl => simp at h; omega

/-- C3 witness: the amended statement at the concrete one-point input. -/
theorem buildReturns_short_input_empty_witness :
    ([100] : List ℚ).length < 2 ∧ buildReturns [100] = [] :=
  ⟨by decide, buildReturns_short_input_empty [100] (by decide)⟩

/-- C4: for a PriceSeries of `n ≥ 2` strictly positive prices the Return
Series Builder yields exactly `n - 1` entries and the compounded product
`Π (1 + r_i)` telescopes to `price_{n-1} / price_0` (exactly, in `ℚ`;
hence within any floating-point tolerance). -/
theorem return_round_trip (ps : List ℚ) (hlen : 2 ≤ ps.length)
    (hpos : ∀ p ∈ ps, 0 < p) :
    (buildReturns ps).length = ps.length - 1 ∧
      prodOnePlus (buildReturns ps) =
        ps.getLast (by intro h; rw [h] at hlen; simp at hlen) /
          ps.head (by intro h; rw [h] at hlen; simp at hlen) := by
  refine ⟨buildReturns_length ps, ?_⟩
  exact prodOnePlus_buildReturns ps _ (fun p hp => ne_of_gt (hpos p hp))

/-- C4 witness: the round trip at the concrete PriceSeries
`[100, 110, 90]`. -/
theorem return_round_trip_witness :
    2 ≤ ([100, 110, 90] : List ℚ).length ∧
      (buildReturns [100, 110, 90]).length = 2 ∧
      prodOnePlus (buildReturns [100, 110, 90]) = 90 / 100 := by
  have h := return_round_trip [100, 110, 90] (by decide)
    (by intro p hp; fin_cases hp <;> norm_num)
  refine ⟨by decide, h.1, ?_⟩
  have h2 := h.2
  simpa using h2

/-! ### Rolling Window Engine

`(1 + ret).rolling(w).apply(f)` and `shift(-L)`, as used for the
trailing/forward momentum windows (`past20` / `future20`, Gold page lines
240-243 and 524-527) and the rolling horizon returns of the
empirical-probability section (HHIS page lines 581-586). -/

/-- The series `1 + ret` (NaN stays NaN). -/
def onePlus (s : List (Option ℚ)) : List (Option ℚ) :=
  s.map (Option.map (fun r => 1 + r))

/-- Model of `Series.shift(-L)`: entry `i` becomes the old entry `i + L`; the last
`L` entries (all of them when `L` exceeds the length) become NaN. The
length is preserved. -/
def shiftNeg (L : Nat) (s : List (Option ℚ)) : List (Option ℚ) :=
  s.drop L ++ List.replicate (min L s.length) none

/-- Collect a window of pandas cells: `some` of the value list when no
cell is NaN, `none` otherwise (a NaN inside a window makes the rolling
result NaN under the default `min_periods = window`). -/
def seqOpt : List (Option ℚ) → Option (List ℚ)
  | [] => some []
  | none :: _ => none
  | some x :: tl => (seqOpt tl).map (fun ys => x :: ys)

/-- The trailing window `[i - w + 1, i]` of cells fed to a rolling
aggregation at index `i` (meaningful when `w ≤ i + 1`). -/
def rollWindow (w i : Nat) (s : List (Option ℚ)) : List (Option ℚ) :=
  (s.drop (i + 1 - w)).take w

/-- Model of `Series.rolling(w).apply(f)` with the default `min_periods = w`:
entry `i` is NaN while `i + 1 < w`, is NaN when the window holds any NaN,
and is `f` of the window values otherwise. -/
def rollingApply (f : List ℚ → ℚ) (w : Nat) (s : List (Option ℚ)) :
    List (Option ℚ) :=
  (List.range s.length).map (fun i =>
    if w ≤ i + 1 then (seqOpt (rollWindow w i s)).map f else none)

/-- The aggregation lambda of the source, verbatim:
`lambda x: np.prod(1 + x) - 1` (it adds 1 to whatever window values it
receives). -/
def compoundLambda (xs : List ℚ) : ℚ :=
  (xs.map (fun r => 1 + r)).prod - 1

/-- Column `past20`: `(1 + ret).rolling(L).apply(lambda x: np.prod(1 + x) - 1)`
(Gold page lines 240 and 524; the same composite is `rolling_ret` at HHIS
lines 581-584, there applied to the already `dropna`-ed return column). -/
def past20 (L : Nat) (ret : List (Option ℚ)) : List (Option ℚ) :=
  rollingApply compoundLambda L (onePlus ret)

/-- Column `future20`:
`(1 + ret).shift(-L).rolling(L).apply(lambda x: np.prod(1 + x) - 1)`
(Gold page lines 241-243 and 525-527). -/
def future20 (L : Nat) (ret : List (Option ℚ)) : List (Option ℚ) :=
  rollingApply compoundLambda L (shiftNeg L (onePlus ret))

/-- C1 (code bug, evaluated at the failing input): on the constant price
series `[100, 100, 100]` every return is `0`, so a compounded-product
rolling window of length 2 should give `Π (1 + r_j) - 1 = 0`; the
source's composite rolls the series `1 + ret` and then adds 1 once more
inside the lambda, computing `Π (2 + r_j) - 1 = 3` instead. -/
theorem rolling_compound_double_shift :
    (past20 2 (pctChange [100, 100, 100])).get? 2 = some (some 3) ∧
      (3 : ℚ) ≠ 0 := by
  constructor
  · norm_num [past20, rollingApply, onePlus, pctChange, rollWindow, seqOpt,
      compoundLambda, List.range_succ]
  · norm_num

theorem length_shiftNeg (L : Nat) (s : List (Option ℚ)) :
    (shiftNeg L s).length = s.length := by
  simp [shiftNeg]
  omega

theorem rollingApply_get? (f : List ℚ → ℚ) (w : Nat) (s : List (Option ℚ))
    (i : Nat) (hi : i < s.length) :
    (rollingApply f w s).get? i =
      some (if w ≤ i + 1 then (seqOpt (rollWindow w i s)).map f else none) := by
  simp only [rollingApply, List.get?_eq_getElem?, List.getElem?_map]
  rw [List.getElem?_range hi]
  rfl

theorem seqOpt_no_none {l : List (Option ℚ)} {v : List ℚ}
    (h : seqOpt l = some v) : ∀ o ∈ l, o ≠ none := by
  induction l generalizing v with
  | nil => simp
  | cons hd tl ih =>
    match hd with
    | none => simp [seqOpt] at h
    | some x =>
      simp only [seqOpt, Option.map_eq_some'] at h
      obtain ⟨ys, hys, _⟩ := h
      intro o ho
      rcases List.mem_cons.mp ho with h0 | h1
      · rw [h0]; simp
      · exact ih hys o h1

theorem rollWindow_get? (w i k : Nat) (s : List (Option ℚ)) (hk : k < w) :
    (rollWindow w i s).get? k = s.get? (i + 1 - w + k) := by
  simp only [rollWindow, List.get?_eq_getElem?]
  rw [List.getElem?_take_of_lt hk, List.getElem?_drop]

theorem shiftNeg_get?_pad (L i : Nat) (s : List (Option ℚ))
    (hin : i < s.length) (hge : s.length ≤ i + L) :
    (shiftNeg L s).get? i = some none := by
  rw [shiftNeg, List.get?_eq_getElem?]
  by_cases hLn : L ≤ s.length
  · have hle : (s.drop L).length ≤ i := by
      simp
      omega
    rw [List.getElem?_append_right hle, List.getElem?_replicate]
    have hidx : i - (s.drop L).length < min L s.length := by
      simp
      omega
    rw [if_pos hidx]
  · have hdrop : s.drop L = [] := List.drop_eq_nil_of_le (by omega)
    rw [hdrop, List.nil_append, List.getElem?_replicate]
    have hidx : i < min L s.length := by omega
    rw [if_pos hidx]

theorem shiftNeg_rollWindow (L i : Nat) (s : List (Option ℚ))
    (h1 : L ≤ i + 1) (h2 : i + 1 + L ≤ s.length) :
    rollWindow L i (shiftNeg L s) = (s.drop (i + 1)).take L := by
  apply List.ext_get?
  intro k
  by_cases hk : k < L
  · rw [rollWindow_get? L i k _ hk, List.get?_take hk, List.get?_drop]
    have hleft : i + 1 - L + k < (s.drop L).length := by
      simp
      omega
    rw [shiftNeg, List.get?_append hleft, List.get?_drop]
    congr 1
    omega
  · have hlen1 : (rollWindow L i (shiftNeg L s)).length ≤ k := by
      simp [rollWindow]
      omega
    have hlen2 : ((s.drop (i + 1)).take L).length ≤ k := by
      simp
      omega
    rw [List.get?_eq_none.mpr hlen1, List.get?_eq_none.mpr hlen2]

theorem seqOpt_shift_bound (L i : Nat) (s : List (Option ℚ)) (vals : List ℚ)
    (h1 : L ≤ i + 1) (hi : i < s.length)
    (hs : seqOpt (rollWindow L i (shiftNeg L s)) = some vals) :
    i + 1 + L ≤ s.length := by
  by_contra hcon
  push_neg at hcon
  have hL : 1 ≤ L := by omega
  have hpad : (shiftNeg L s).get? i = some none :=
    shiftNeg_get?_pad L i s hi (by omega)
  have hwin : (rollWindow L i (shiftNeg L s)).get? (L - 1) = some none := by
    rw [rollWindow_get? L i (L - 1) _ (by omega)]
    have heq : i + 1 - L + (L - 1) = i := by omega
    rw [heq]
    exact hpad
  exact seqOpt_no_none hs none (List.get?_mem hwin) rfl

/-- C10: at every index `i` at which both the trailing (`past20`) and the
forward (`future20`) momentum values are defined, the forward window of
the source (`shift(-L)` then `rolling(L)`) reads exactly the cells at
indices `i + 1 .. i + L` of the underlying `1 + ret` series, the
trailing window reads exactly the cells at `i - L + 1 .. i`, and the two
index ranges are disjoint — the current observation `i` belongs to the
trailing window only. -/
theorem momentum_windows_disjoint (ret : List (Option ℚ)) (L i : Nat)
    (v w : ℚ)
    (hfut : (future20 L ret).get? i = some (some v))
    (hpast : (past20 L ret).get? i = some (some w)) :
    (∀ k, k < L → (rollWindow L i (shiftNeg L (onePlus ret))).get? k =
        (onePlus ret).get? (i + 1 + k)) ∧
      (∀ k, k < L → (rollWindow L i (onePlus ret)).get? k =
        (onePlus ret).get? (i + 1 - L + k)) ∧
      (∀ a b, a < L → b < L → i + 1 - L + a ≠ i + 1 + b) := by
  have hilen : i < (future20 L ret).length := (List.get?_eq_some.mp hfut).1
  have hlen : (future20 L ret).length = (onePlus ret).length := by
    simp [future20, rollingApply, length_shiftNeg]
  have hi : i < (shiftNeg L (onePlus ret)).length := by
    rw [length_shiftNeg]
    omega
  rw [future20, rollingApply_get? _ _ _ _ hi] at hfut
  have hfut2 := Option.some_injective _ hfut
  by_cases hcond : L ≤ i + 1
  · rw [if_pos hcond] at hfut2
    obtain ⟨vals, hvals, _⟩ := Option.map_eq_some'.mp hfut2
    have hbound : i + 1 + L ≤ (onePlus ret).length := by
      have := seqOpt_shift_bound L i (onePlus ret) vals hcond
        (by rw [length_shiftNeg] at hi; exact hi) hvals
      exact this
    refine ⟨?_, ?_, ?_⟩
    · intro k hk
      rw [shiftNeg_rollWindow L i _ hcond hbound, List.get?_take hk,
        List.get?_drop]
    · intro k hk
      exact rollWindow_get? L i k _ hk
    · intro a b ha hb
      omega
  · rw [if_neg hcond] at hfut2
    exact absurd hfut2 (by simp)

/-- C10 witness: the window characterisation at the concrete return
series `[0, 0]` with `L = 1`, `i = 0`. -/
theorem momentum_windows_disjoint_witness :
    (future20 1 [some 0, some 0]).get? 0 = some (some 1) ∧
      (past20 1 [some 0, some 0]).get? 0 = some (some 1) ∧
      ((∀ k, k < 1 →
          (rollWindow 1 0 (shiftNeg 1 (onePlus [some 0, some 0]))).get? k =
            (onePlus [some 0, some 0]).get? (0 + 1 + k)) ∧
        (∀ k, k < 1 → (rollWindow 1 0 (onePlus [some 0, some 0])).get? k =
          (onePlus [some 0, some 0]).get? (0 + 1 - 1 + k)) ∧
        (∀ a b, a < 1 → b < 1 → 0 + 1 - 1 + a ≠ 0 + 1 + b)) := by
  have h1 : (future20 1 [some 0, some 0]).get? 0 = some (some 1) := by
    norm_num [future20, rollingApply, onePlus, shiftNeg, rollWindow, seqOpt,
      compoundLambda, List.range_succ]
  have h2 : (past20 1 [some 0, some 0]).get? 0 = some (some 1) := by
    norm_num [past20, rollingApply, onePlus, rollWindow, seqOpt,
      compoundLambda, List.range_succ]
  exact ⟨h1, h2, momentum_windows_disjoint [some 0, some 0] 1 0 1 1 h1 h2⟩

/-! ### Cumulative growth, running max, drawdown

Gold page lines 81-86:
`cum_growth = (1 + ret.fillna(0)).cumprod()`,
`cum_index = 100 * cum_growth / cum_growth.iloc[0]`,
`running_max = cum_index.cummax()`,
`drawdown = cum_index / running_max - 1`. -/

/-- Model of `Series.fillna(0)`. -/
def fillna0 (s : List (Option ℚ)) : List ℚ :=
  s.map (fun o => o.getD 0)

def cumprodAux (acc : ℚ) : List ℚ → List ℚ
  | [] => []
  | x :: tl => (acc * x) :: cumprodAux (acc * x) tl

/-- Model of `Series.cumprod()`. -/
def cumprod (xs : List ℚ) : List ℚ :=
  cumprodAux 1 xs

def cummaxAux (acc : ℚ) : List ℚ → List ℚ
  | [] => []
  | x :: tl => (max acc x) :: cummaxAux (max acc x) tl

/-- Model of `Series.cummax()`. -/
def cummax : List ℚ → List ℚ
  | [] => []
  | x :: tl => x :: cummaxAux x tl

/-- Column `cum_growth`: compounded growth of the (NaN-filled) daily returns. -/
def cumGrowth (ps : List ℚ) : List ℚ :=
  cumprod ((fillna0 (pctChange ps)).map (fun r => 1 + r))

/-- Column `cum_index = 100 * cum_growth / cum_growth.iloc[0]`. -/
def cumIndex (ps : List ℚ) : List ℚ :=
  match cumGrowth ps with
  | [] => []
  | g :: gs => (g :: gs).map (fun x => 100 * x / g)

/-- Column `running_max = cum_index.cummax()`. -/
def runningMax (ps : List ℚ) : List ℚ :=
  cummax (cumIndex ps)

/-- Column `drawdown = cum_index / running_max - 1`. -/
def drawdown (ps : List ℚ) : List ℚ :=
  List.zipWith (fun c m => c / m - 1) (cumIndex ps) (runningMax ps)

/-- Maximum of a value list (0 on the empty list, never used there). -/
def listMaxQ : List ℚ → ℚ
  | [] => 0
  | x :: tl => tl.foldl max x

theorem le_foldl_max (l : List ℚ) (a : ℚ) : a ≤ l.foldl max a := by
  induction l generalizing a with
  | nil => exact le_refl a
  | cons x tl ih =>
    calc a ≤ max a x := le_max_left a x
    _ ≤ tl.foldl max (max a x) := ih (max a x)

theorem mem_le_foldl_max (l : List ℚ) (a x : ℚ) (hx : x ∈ l) :
    x ≤ l.foldl max a := by
  match l with
  | [] => simp at hx
  | hd :: tl =>
    rcases List.mem_cons.mp hx with h0 | h1
    · rw [h0]
      calc hd ≤ max a hd := le_max_right a hd
      _ ≤ tl.foldl max (max a hd) := le_foldl_max tl (max a hd)
    · exact mem_le_foldl_max tl (max a hd) x h1

theorem foldl_max_mem (l : List ℚ) (a : ℚ) :
    l.foldl max a = a ∨ l.foldl max a ∈ l := by
  match l with
  | [] => exact Or.inl rfl
  | hd :: tl =>
    rcases foldl_max_mem tl (max a hd) with h0 | h1
    · simp only [List.foldl_cons]
      rw [h0]
      rcases max_cases a hd with ⟨he, _⟩ | ⟨he, _⟩
      · exact Or.inl he
      · exact Or.inr (by rw [he]; exact List.mem_cons_self hd tl)
    · exact Or.inr (List.mem_cons_of_mem hd h1)

theorem le_listMaxQ_of_mem (l : List ℚ) (x : ℚ) (hx : x ∈ l) :
    x ≤ listMaxQ l := by
  match l with
  | [] => simp at hx
  | hd :: tl =>
    rcases List.mem_cons.mp hx with h0 | h1
    · rw [h0]
      exact le_foldl_max tl hd
    · exact mem_le_foldl_max tl hd x h1

theorem listMaxQ_mem (l : List ℚ) (hne : l ≠ []) : listMaxQ l ∈ l := by
  match l with
  | hd :: tl =>
    rcases foldl_max_mem tl hd with h0 | h1
    · rw [listMaxQ, h0]
      exact List.mem_cons_self hd tl
    · exact List.mem_cons_of_mem hd h1

theorem cummaxAux_get? (xs : List ℚ) (acc : ℚ) (i : Nat)
    (hi : i < xs.length) :
    (cummaxAux acc xs).get? i = some ((xs.take (i + 1)).foldl max acc) := by
  match xs, i with
  | [], _ => simp at hi
  | x :: tl, 0 => simp [cummaxAux]
  | x :: tl, i + 1 =>
    have hi2 : i < tl.length := by simpa using hi
    show (cummaxAux (max acc x) tl).get? i = _
    rw [cummaxAux_get? tl (max acc x) i hi2]
    simp [List.take_succ_cons]

theorem cummax_get? (xs : List ℚ) (i : Nat) (hi : i < xs.length) :
    (cummax xs).get? i = some (listMaxQ (xs.take (i + 1))) := by
  match xs with
  | [] => simp at hi
  | x :: tl =>
    match i with
    | 0 => simp [cummax, listMaxQ]
    | i + 1 =>
      have hi2 : i < tl.length := by simpa using hi
      simp only [cummax, List.get?_cons_succ, List.take_cons]
      rw [cummaxAux_get? tl x i hi2]
      rfl

theorem cumprodAux_pos (xs : List ℚ) (acc : ℚ) (hacc : 0 < acc)
    (hxs : ∀ x ∈ xs, 0 < x) : ∀ y ∈ cumprodAux acc xs, 0 < y := by
  induction xs generalizing acc with
  | nil => simp [cumprodAux]
  | cons x tl ih =>
    intro y hy
    have hx : 0 < x := hxs x (by simp)
    have hax : 0 < acc * x := mul_pos hacc hx
    rcases List.mem_cons.mp hy with h0 | h1
    · rw [h0]; exact hax
    · exact ih (acc * x) hax (fun z hz => hxs z (List.mem_cons_of_mem x hz)) y h1

theorem pctChange_zip_pos (l : List ℚ) (p : ℚ) (hp : 0 < p)
    (hl : ∀ x ∈ l, 0 < x) :
    ∀ o ∈ List.zipWith (fun a b => some (b / a - 1)) (p :: l) l,
      0 < 1 + o.getD 0 := by
  match l with
  | [] => simp
  | q :: tl =>
    intro o ho
    have hq : 0 < q := hl q (by simp)
    rcases List.mem_cons.mp ho with h0 | h1
    · rw [h0]
      have heq : (1 : ℚ) + (q / p - 1) = q / p := by ring
      simp only [Option.getD_some]
      rw [heq]
      exact div_pos hq hp
    · exact pctChange_zip_pos tl q hq
        (fun z hz => hl z (List.mem_cons_of_mem q hz)) o h1

theorem fillna0_pctChange_pos (ps : List ℚ) (hpos : ∀ p ∈ ps, 0 < p) :
    ∀ r ∈ fillna0 (pctChange ps), 0 < 1 + r := by
  match ps with
  | [] => simp [fillna0, pctChange]
  | p :: tl =>
    intro r hr
    simp only [pctChange, fillna0, List.map_cons] at hr
    rcases List.mem_cons.mp hr with h0 | h1
    · rw [h0]; norm_num
    · obtain ⟨o, ho, hor⟩ := List.mem_map.mp h1
      have hp : 0 < p := hpos p (by simp)
      have htl : ∀ x ∈ tl, 0 < x := fun x hx =>
        hpos x (List.mem_cons_of_mem p hx)
      rw [← hor]
      exact pctChange_zip_pos tl p hp htl o ho

theorem cumGrowth_pos (ps : List ℚ) (hpos : ∀ p ∈ ps, 0 < p) :
    ∀ x ∈ cumGrowth ps, 0 < x := by
  apply cumprodAux_pos _ 1 one_pos
  intro x hx
  obtain ⟨r, hr, hrx⟩ := List.mem_map.mp hx
  rw [← hrx]
  exact fillna0_pctChange_pos ps hpos r hr

theorem cumIndex_pos (ps : List ℚ) (hpos : ∀ p ∈ ps, 0 < p) :
    ∀ x ∈ cumIndex ps, 0 < x := by
  rw [cumIndex]
  match hg : cumGrowth ps with
  | [] => simp
  | g :: gs =>
    intro x hx
    obtain ⟨y, hy, hyx⟩ := List.mem_map.mp hx
    have hgpos : 0 < g := by
      apply cumGrowth_pos ps hpos
      rw [hg]
      exact List.mem_cons_self g gs
    have hypos : 0 < y := by
      apply cumGrowth_pos ps hpos
      rw [hg]
      exact hy
    rw [← hyx]
    positivity

/-- C9: for every index `i` of the drawdown trace built from a positive
PriceSeries, `drawdown_i = cum_index_i / running_max_i - 1 ≤ 0`, and
`drawdown_i = 0` whenever `cum_index_i` is a (weak) running maximum, i.e.
at least every earlier cumulative-index value. -/
theorem drawdown_nonpos_and_zero_at_peak (ps : List ℚ)
    (hpos : ∀ p ∈ ps, 0 < p) (i : Nat) (c m d : ℚ)
    (hc : (cumIndex ps).get? i = some c)
    (hm : (runningMax ps).get? i = some m)
    (hd : (drawdown ps).get? i = some d) :
    d = c / m - 1 ∧ d ≤ 0 ∧
      ((∀ j y, j ≤ i → (cumIndex ps).get? j = some y → y ≤ c) → d = 0) := by
  have hilen : i < (cumIndex ps).length := (List.get?_eq_some.mp hc).1
  have hmval : m = listMaxQ ((cumIndex ps).take (i + 1)) := by
    rw [runningMax, cummax_get? _ i hilen] at hm
    exact (Option.some_injective _ hm).symm
  have hcpos : 0 < c := cumIndex_pos ps hpos c (List.get?_mem hc)
  have hcm : c ≤ m := by
    rw [hmval]
    apply le_listMaxQ_of_mem
    have : ((cumIndex ps).take (i + 1)).get? i = some c := by
      rw [List.get?_eq_getElem?, List.getElem?_take_of_lt (by omega),
        ← List.get?_eq_getElem?]
      exact hc
    exact List.get?_mem this
  have hmpos : 0 < m := lt_of_lt_of_le hcpos hcm
  have hdval : d = c / m - 1 := by
    rw [drawdown, List.get?_zipWith', hc, hm] at hd
    simp at hd
    exact hd.symm
  refine ⟨hdval, ?_, ?_⟩
  · rw [hdval]
    have : c / m ≤ 1 := (div_le_one hmpos).mpr hcm
    linarith
  · intro hmax
    have hmc : m ≤ c := by
      have hne : (cumIndex ps).take (i + 1) ≠ [] := by
        apply List.ne_nil_of_length_pos
        rw [List.length_take]
        omega
      have hmem : m ∈ (cumIndex ps).take (i + 1) := by
        rw [hmval]
        exact listMaxQ_mem _ hne
      obtain ⟨j, hj⟩ := List.get?_of_mem hmem
      have hjlt : j < i + 1 := by
        have hjl := (List.get?_eq_some.mp hj).1
        have hlen : ((cumIndex ps).take (i + 1)).length ≤ i + 1 := by
          rw [List.length_take]
          exact min_le_left _ _
        omega
      have hj2 : (cumIndex ps).get? j = some m := by
        rw [List.get?_eq_getElem?] at hj ⊢
        rw [List.getElem?_take_of_lt hjlt] at hj
        exact hj
      exact hmax j m (by omega) hj2
    have hceq : c = m := le_antisymm hcm hmc
    rw [hdval, hceq, div_self (ne_of_gt hmpos)]
    ring

/-- C9 witness: the drawdown property at the PriceSeries `[100, 110, 90]`
and index 2, where `cum_index = [100, 110, 90]`, `running_max` ends at
110 and the drawdown is `90/110 - 1 = -2/11`. -/
theorem drawdown_nonpos_witness :
    (cumIndex [100, 110, 90]).get? 2 = some 90 ∧
      (runningMax [100, 110, 90]).get? 2 = some 110 ∧
      (drawdown [100, 110, 90]).get? 2 = some (-2 / 11) ∧
      ((-2 / 11 : ℚ) = 90 / 110 - 1 ∧ (-2 / 11 : ℚ) ≤ 0 ∧
        ((∀ j y, j ≤ 2 → (cumIndex [100, 110, 90]).get? j = some y → y ≤ 90) →
          (-2 / 11 : ℚ) = 0)) := by
  have hc : (cumIndex [100, 110, 90]).get? 2 = some 90 := by
    norm_num [cumIndex, cumGrowth, cumprod, cumprodAux, fillna0, pctChange]
  have hm : (runningMax [100, 110, 90]).get? 2 = some 110 := by
    norm_num [runningMax, cummax, cummaxAux, cumIndex, cumGrowth, cumprod,
      cumprodAux, fillna0, pctChange]
  have hd : (drawdown [100, 110, 90]).get? 2 = some (-2 / 11) := by
    norm_num [drawdown, runningMax, cummax, cummaxAux, cumIndex, cumGrowth,
      cumprod, cumprodAux, fillna0, pctChange]
  exact ⟨hc, hm, hd, drawdown_nonpos_and_zero_at_peak [100, 110, 90]
    (by intro p hp; fin_cases hp <;> norm_num) 2 90 110 (-2 / 11) hc hm hd⟩

/-! ### Max-drawdown episode endpoints

Gold page lines 162-164:
`max_dd = drawdown.min()`, `dd_end = drawdown.idxmin()`,
`dd_start = cum_index.loc[:dd_end].idxmax()`.
Pandas `idxmin` / `idxmax` return the FIRST index attaining the
extremum; `.loc[:dd_end]` is inclusive of `dd_end`. -/

/-- Model of `Series.idxmin()`: first index attaining the minimum. -/
def argminFirst : List ℚ → Nat
  | [] => 0
  | [_] => 0
  | x :: y :: tl =>
    let j := argminFirst (y :: tl)
    if (y :: tl).getD j 0 < x then j + 1 else 0

/-- Model of `Series.idxmax()`: first index attaining the maximum. -/
def argmaxFirst : List ℚ → Nat
  | [] => 0
  | [_] => 0
  | x :: y :: tl =>
    let j := argmaxFirst (y :: tl)
    if x < (y :: tl).getD j 0 then j + 1 else 0

/-- Value `dd_end = drawdown.idxmin()`: the trough of the worst drawdown. -/
def ddEnd (ps : List ℚ) : Nat :=
  argminFirst (drawdown ps)

/-- Value `dd_start = cum_index.loc[:dd_end].idxmax()`: the reported peak. -/
def ddStart (ps : List ℚ) : Nat :=
  argmaxFirst ((cumIndex ps).take (ddEnd ps + 1))

theorem argmaxFirst_lt_length (l : List ℚ) (hne : l ≠ []) :
    argmaxFirst l < l.length := by
  match l with
  | [x] => simp [argmaxFirst]
  | x :: y :: tl =>
    rw [argmaxFirst]
    have hrec := argmaxFirst_lt_length (y :: tl) (by simp)
    by_cases hc : x < (y :: tl).getD (argmaxFirst (y :: tl)) 0
    · rw [if_pos hc]
      simpa using hrec
    · rw [if_neg hc]
      simp

theorem argmaxFirst_ge (l : List ℚ) :
    ∀ j, j < l.length → l.getD j 0 ≤ l.getD (argmaxFirst l) 0 := by
  match l with
  | [] => intro j hj; simp at hj
  | [x] =>
    intro j hj
    have hj0 : j = 0 := by simpa using hj
    rw [hj0]
    simp [argmaxFirst]
  | x :: y :: tl =>
    intro j hj
    rw [argmaxFirst]
    by_cases hc : x < (y :: tl).getD (argmaxFirst (y :: tl)) 0
    · rw [if_pos hc]
      match j with
      | 0 =>
        simp only [List.getD_cons_zero, List.getD_cons_succ]
        exact le_of_lt hc
      | j + 1 =>
        simp only [List.getD_cons_succ]
        exact argmaxFirst_ge (y :: tl) j (by simpa using hj)
    · rw [if_neg hc]
      push_neg at hc
      match j with
      | 0 => simp
      | j + 1 =>
        simp only [List.getD_cons_succ, List.getD_cons_zero]
        exact le_trans (argmaxFirst_ge (y :: tl) j (by simpa using hj)) hc

theorem argmaxFirst_earliest (l : List ℚ) :
    ∀ j, j < argmaxFirst l → l.getD j 0 < l.getD (argmaxFirst l) 0 := by
  match l with
  | [] => intro j hj; simp [argmaxFirst] at hj
  | [x] => intro j hj; simp [argmaxFirst] at hj
  | x :: y :: tl =>
    intro j hj
    rw [argmaxFirst] at hj ⊢
    by_cases hc : x < (y :: tl).getD (argmaxFirst (y :: tl)) 0
    · rw [if_pos hc] at hj ⊢
      match j with
      | 0 => simpa using hc
      | j + 1 =>
        simp only [List.getD_cons_succ]
        exact argmaxFirst_earliest (y :: tl) j (by omega)
    · rw [if_neg hc] at hj
      omega

theorem length_cumprodAux (acc : ℚ) (xs : List ℚ) :
    (cumprodAux acc xs).length = xs.length := by
  induction xs generalizing acc with
  | nil => rfl
  | cons x tl ih => simp [cumprodAux, ih]

theorem length_pctChange (ps : List ℚ) :
    (pctChange ps).length = ps.length := by
  match ps with
  | [] => rfl
  | p :: tl => simp [pctChange]

theorem length_cumGrowth (ps : List ℚ) :
    (cumGrowth ps).length = ps.length := by
  rw [cumGrowth, cumprod, length_cumprodAux]
  simp [fillna0, length_pctChange]

theorem length_cumIndex (ps : List ℚ) :
    (cumIndex ps).length = ps.length := by
  rw [cumIndex]
  match hg : cumGrowth ps with
  | [] =>
    have hl := length_cumGrowth ps
    rw [hg] at hl
    simp [← hl]
  | g :: gs =>
    have := length_cumGrowth ps
    rw [hg] at this
    simpa using this

/-- C5 (counterexample): on the PriceSeries `[100, 90, 100, 80]` the
cumulative index is `[100, 90, 100, 80]`; the trough (`dd_end`, first
index of the minimal drawdown) is 3, and the pre-trough maximum 100 is
attained at indices 0 and 2. The claim says the LATEST such index, 2, is
reported as the peak; the source uses pandas `idxmax`, which returns the
FIRST occurrence, so `dd_start = 0 ≠ 2`. -/
theorem drawdown_peak_tie_cex :
    ddEnd [100, 90, 100, 80] = 3 ∧
      ddStart [100, 90, 100, 80] = 0 ∧
      (cumIndex [100, 90, 100, 80]).get? 2 = some 100 ∧
      (cumIndex [100, 90, 100, 80]).get? 0 = some 100 ∧
      (0 : Nat) ≠ 2 := by
  have hend : ddEnd [100, 90, 100, 80] = 3 := by
    norm_num [ddEnd, argminFirst, drawdown, runningMax, cummax, cummaxAux,
      cumIndex, cumGrowth, cumprod, cumprodAux, fillna0, pctChange]
  refine ⟨hend, ?_, ?_, ?_, by omega⟩
  · rw [ddStart, hend]
    norm_num [argmaxFirst, cumIndex, cumGrowth, cumprod, cumprodAux,
      fillna0, pctChange]
  · norm_num [cumIndex, cumGrowth, cumprod, cumprodAux, fillna0, pctChange]
  · norm_num [cumIndex, cumGrowth, cumprod, cumprodAux, fillna0, pctChange]

/-- C5 (amended): the reported peak `dd_start` is the FIRST index at or
before the trough `dd_end` at which the maximum of the cumulative index
over that inclusive window is attained: it lies in the window, its value
dominates every value in the window, and every strictly earlier value is
strictly below it (first occurrence, hence on ties the earliest — not
the latest — timestamp is reported). -/
theorem drawdown_peak_first_argmax (ps : List ℚ) (hne : ps ≠ []) :
    ddStart ps ≤ ddEnd ps ∧
      (∀ j, j < ((cumIndex ps).take (ddEnd ps + 1)).length →
        ((cumIndex ps).take (ddEnd ps + 1)).getD j 0 ≤
          ((cumIndex ps).take (ddEnd ps + 1)).getD (ddStart ps) 0) ∧
      (∀ j, j < ddStart ps →
        ((cumIndex ps).take (ddEnd ps + 1)).getD j 0 <
          ((cumIndex ps).take (ddEnd ps + 1)).getD (ddStart ps) 0) := by
  have hlen : 0 < (cumIndex ps).length := by
    rw [length_cumIndex]
    exact List.length_pos.mpr hne
  have hprene : (cumIndex ps).take (ddEnd ps + 1) ≠ [] := by
    apply List.ne_nil_of_length_pos
    rw [List.length_take]
    omega
  have hlt := argmaxFirst_lt_length _ hprene
  refine ⟨?_, ?_, ?_⟩
  · have : ((cumIndex ps).take (ddEnd ps + 1)).length ≤ ddEnd ps + 1 := by
      rw [List.length_take]
      exact min_le_left _ _
    rw [ddStart]
    omega
  · exact argmaxFirst_ge _
  · exact argmaxFirst_earliest _

/-- C5 witness: the amended peak characterisation at the PriceSeries
`[100, 90, 100, 80]`. -/
theorem drawdown_peak_first_argmax_witness :
    ([100, 90, 100, 80] : List ℚ) ≠ [] ∧
      (ddStart [100, 90, 100, 80] ≤ ddEnd [100, 90, 100, 80] ∧
        (∀ j, j < ((cumIndex [100, 90, 100, 80]).take
            (ddEnd [100, 90, 100, 80] + 1)).length →
          ((cumIndex [100, 90, 100, 80]).take
              (ddEnd [100, 90, 100, 80] + 1)).getD j 0 ≤
            ((cumIndex [100, 90, 100, 80]).take
              (ddEnd [100, 90, 100, 80] + 1)).getD (ddStart [100, 90, 100, 80]) 0) ∧
        (∀ j, j < ddStart [100, 90, 100, 80] →
          ((cumIndex [100, 90, 100, 80]).take
              (ddEnd [100, 90, 100, 80] + 1)).getD j 0 <
            ((cumIndex [100, 90, 100, 80]).take
              (ddEnd [100, 90, 100, 80] + 1)).getD (ddStart [100, 90, 100, 80]) 0)) :=
  ⟨by simp, drawdown_peak_first_argmax [100, 90, 100, 80] (by simp)⟩

/-! ### Quantiles, VaR / CVaR

Gold page lines 235-236 and 495-496:
`var_95 = ret_series.quantile(0.05)`,
`cvar_95 = ret_series[ret_series <= var_95].mean()`.
`Series.quantile` (and `np.percentile`) use linear interpolation between
order statistics: with the sample sorted ascending as `ys` and
`h = p * (n - 1)`, the result is `ys[⌊h⌋] + (h - ⌊h⌋) * (ys[⌊h⌋+1] - ys[⌊h⌋])`. -/

/-- Model of `Series.quantile(p)` with the default linear interpolation. -/
def quantileLin (p : ℚ) (xs : List ℚ) : ℚ :=
  let ys := List.insertionSort (fun a b => a ≤ b) xs
  let h := p * ((xs.length : ℚ) - 1)
  let i := (Int.floor h).toNat
  let g := h - ((Int.floor h : ℤ) : ℚ)
  match ys.get? i, ys.get? (i + 1) with
  | some a, some b => a + g * (b - a)
  | some a, none => a
  | _, _ => 0

/-- Model of `Series.mean()`. -/
def meanQ (xs : List ℚ) : ℚ :=
  xs.sum / xs.length

/-- Value `var_p = ret_series.quantile(p)` (the source uses `p = 0.05`). -/
def varLevel (p : ℚ) (xs : List ℚ) : ℚ :=
  quantileLin p xs

/-- Value `cvar_p = ret_series[ret_series <= var_p].mean()`. -/
def cvarLevel (p : ℚ) (xs : List ℚ) : ℚ :=
  meanQ (xs.filter (fun r => r ≤ varLevel p xs))

theorem sorted_get_le (ys : List ℚ)
    (hs : ys.Sorted (fun a b : ℚ => a ≤ b)) (j k : Nat) (hjk : j ≤ k)
    (hk : k < ys.length) (a b : ℚ) (hj2 : ys.get? j = some a)
    (hk2 : ys.get? k = some b) : a ≤ b := by
  have hj : j < ys.length := by omega
  have ha : ys.get ⟨j, hj⟩ = a := by
    rw [List.get?_eq_get hj] at hj2
    exact Option.some_injective _ hj2
  have hb : ys.get ⟨k, hk⟩ = b := by
    rw [List.get?_eq_get hk] at hk2
    exact Option.some_injective _ hk2
  rw [← ha, ← hb]
  exact hs.rel_get_of_le (by exact hjk)

theorem quantileLin_ge_min (p : ℚ) (xs : List ℚ) (hp0 : 0 ≤ p) (hp1 : p < 1)
    (hne : xs ≠ []) (m : ℚ)
    (hm : (List.insertionSort (fun a b : ℚ => a ≤ b) xs).get? 0 = some m) :
    m ≤ quantileLin p xs := by
  have hlen : (List.insertionSort (fun a b : ℚ => a ≤ b) xs).length = xs.length :=
    List.length_insertionSort _ _
  have hsort : (List.insertionSort (fun a b : ℚ => a ≤ b) xs).Sorted
      (fun a b : ℚ => a ≤ b) := List.sorted_insertionSort _ _
  have hn : 1 ≤ xs.length := by
    have := List.length_pos.mpr hne
    omega
  set ys := List.insertionSort (fun a b : ℚ => a ≤ b) xs with hys
  set h := p * ((xs.length : ℚ) - 1) with hh
  have hh0 : 0 ≤ h := by
    apply mul_nonneg hp0
    have : (1 : ℚ) ≤ (xs.length : ℚ) := by exact_mod_cast hn
    linarith
  have hfl0 : 0 ≤ Int.floor h := Int.floor_nonneg.mpr hh0
  have hflcast : ((Int.floor h).toNat : ℤ) = Int.floor h := Int.toNat_of_nonneg hfl0
  have hi : (Int.floor h).toNat < xs.length := by
    have hlt : h < ((xs.length : ℚ) - 1) + 1 := by
      have hle : h ≤ (xs.length : ℚ) - 1 := by
        have : (1 : ℚ) ≤ (xs.length : ℚ) := by exact_mod_cast hn
        nlinarith
      linarith
    have : ((xs.length : ℚ) - 1) + 1 = ((xs.length : ℤ) : ℚ) := by push_cast; ring
    rw [this] at hlt
    have hfl : Int.floor h < (xs.length : ℤ) := Int.floor_lt.mpr hlt
    omega
  have hg0 : 0 ≤ h - ((Int.floor h : ℤ) : ℚ) := by
    have := Int.floor_le h
    linarith
  obtain ⟨a, ha⟩ : ∃ a, ys.get? (Int.floor h).toNat = some a := by
    have : (Int.floor h).toNat < ys.length := by omega
    rw [List.get?_eq_get this]
    exact ⟨_, rfl⟩
  have hma : m ≤ a := sorted_get_le ys hsort 0 (Int.floor h).toNat
    (by omega) (by omega) m a hm ha
  rw [quantileLin]
  simp only [← hys, ← hh]
  rw [ha]
  cases hb : ys.get? ((Int.floor h).toNat + 1) with
  | none =>
    exact hma
  | some b =>
    have hab : a ≤ b := sorted_get_le ys hsort (Int.floor h).toNat
      ((Int.floor h).toNat + 1) (by omega) (by exact (List.get?_eq_some.mp hb).1)
      a b ha hb
    have hprod : 0 ≤ (h - ((Int.floor h : ℤ) : ℚ)) * (b - a) :=
      mul_nonneg hg0 (by linarith)
    show m ≤ a + (h - ((Int.floor h : ℤ) : ℚ)) * (b - a)
    linarith

/-- C8: for any nonempty return sample (hence any non-degenerate one)
and any confidence level `p` strictly between 0 and 1,
`cvar_p ≤ var_p`: the mean of the returns at or below the interpolated
`p`-quantile never exceeds that quantile. -/
theorem cvar_le_var (p : ℚ) (xs : List ℚ) (hp0 : 0 < p) (hp1 : p < 1)
    (hne : xs ≠ []) : cvarLevel p xs ≤ varLevel p xs := by
  set ys := List.insertionSort (fun a b : ℚ => a ≤ b) xs with hys
  have hlen : ys.length = xs.length := List.length_insertionSort _ _
  have hn : 1 ≤ xs.length := by
    have := List.length_pos.mpr hne
    omega
  obtain ⟨m, hm⟩ : ∃ m, ys.get? 0 = some m := by
    have h0 : 0 < ys.length := by omega
    rw [List.get?_eq_get h0]
    exact ⟨_, rfl⟩
  have hmv : m ≤ varLevel p xs :=
    quantileLin_ge_min p xs (le_of_lt hp0) hp1 hne m hm
  have hmxs : m ∈ xs := by
    have hmem : m ∈ ys := List.get?_mem hm
    exact (List.perm_insertionSort _ xs).mem_iff.mp hmem
  have hfm : m ∈ xs.filter (fun r => r ≤ varLevel p xs) := by
    rw [List.mem_filter]
    exact ⟨hmxs, by simpa using hmv⟩
  have hfne : xs.filter (fun r => r ≤ varLevel p xs) ≠ [] :=
    List.ne_nil_of_mem hfm
  set l := xs.filter (fun r => r ≤ varLevel p xs) with hl
  have hall : ∀ x ∈ l, x ≤ varLevel p xs := by
    intro x hx
    have := (List.mem_filter.mp hx).2
    simpa using this
  have hlpos : 0 < l.length := List.length_pos.mpr hfne
  have hsum : l.sum ≤ (l.length : ℚ) * varLevel p xs := by
    calc l.sum ≤ l.length • varLevel p xs := List.sum_le_card_nsmul l _ hall
    _ = (l.length : ℚ) * varLevel p xs := by
      rw [nsmul_eq_mul]
  rw [cvarLevel, meanQ]
  rw [div_le_iff (by exact_mod_cast hlpos)]
  calc (xs.filter (fun r => r ≤ varLevel p xs)).sum
      ≤ ((xs.filter (fun r => r ≤ varLevel p xs)).length : ℚ) * varLevel p xs := hsum
  _ = varLevel p xs * ((xs.filter (fun r => r ≤ varLevel p xs)).length : ℚ) := by
      ring

/-- C8 witness: `cvar ≤ var` at `p = 1/20` on the sample `[-1, 0, 1]`. -/
theorem cvar_le_var_witness :
    0 < (1 / 20 : ℚ) ∧ (1 / 20 : ℚ) < 1 ∧ ([-1, 0, 1] : List ℚ) ≠ [] ∧
      cvarLevel (1 / 20) [-1, 0, 1] ≤ varLevel (1 / 20) [-1, 0, 1] :=
  ⟨by norm_num, by norm_num, by simp,
    cvar_le_var (1 / 20) [-1, 0, 1] (by norm_num) (by norm_num) (by simp)⟩

/-! ### Monte Carlo bootstrap

HHIS page lines 484-496:
`rng = np.random.default_rng()` (NO seed — the generator is freshly
created from OS entropy on every run and the caller has no way to inject
one), `sims = rng.choice(ret_array, size=(sim_horizon, n_sims))`,
`sim_cum_rets = (1 + sims).prod(axis=0) - 1`,
`p05/p50/p95 = np.percentile(sim_cum_rets, 5/50/95)`.
The generator is modelled as its stream of drawn indices
`gen : Nat → Nat` (uniform draws with replacement are index draws into
`ret_array`); because the source seeds it from ambient OS entropy, `gen`
is NOT a function of any caller-supplied input. -/

/-- The bootstrap draw in row `h`, column `c` of `sims`. -/
def mcDraw (rets : List ℚ) (N : Nat) (gen : Nat → Nat) (h c : Nat) : ℚ :=
  rets.getD (gen (h * N + c) % rets.length) 0

/-- Column `sim_cum_rets`: the `N` compounded horizon returns
`Π (1 + draw) - 1` down each column of `sims`. -/
def mcCumRets (rets : List ℚ) (H N : Nat) (gen : Nat → Nat) : List ℚ :=
  (List.range N).map (fun c =>
    ((List.range H).map (fun h => 1 + mcDraw rets N gen h c)).prod - 1)

/-- Model of `np.percentile(xs, q)` (`q` in percent, linear interpolation). -/
def npPercentile (q : ℚ) (xs : List ℚ) : ℚ :=
  quantileLin (q / 100) xs

/-- The `(p05, p50, p95)` triple reported by the Monte Carlo section. -/
def mcPercentiles (rets : List ℚ) (H N : Nat) (gen : Nat → Nat) :
    ℚ × ℚ × ℚ :=
  (npPercentile 5 (mcCumRets rets H N gen),
    npPercentile 50 (mcCumRets rets H N gen),
    npPercentile 95 (mcCumRets rets H N gen))

/-- C2 (counterexample): with the identical historical sample `[0, 1]`,
identical `horizon_days = 1` and `n_simulations = 1`, two invocations
whose ambient (unseeded) generators draw different index streams report
different percentile triples: `(0, 0, 0)` versus `(1, 1, 1)`. The
percentile output is therefore not a function of the caller-visible
inputs — the source passes no seed to `np.random.default_rng()`, so
callers cannot make two runs agree. -/
theorem mc_percentiles_depend_on_ambient_rng :
    mcPercentiles [0, 1] 1 1 (fun _ => 0) = (0, 0, 0) ∧
      mcPercentiles [0, 1] 1 1 (fun _ => 1) = (1, 1, 1) ∧
      ((0, 0, 0) : ℚ × ℚ × ℚ) ≠ (1, 1, 1) := by
  refine ⟨?_, ?_, by norm_num⟩
  · norm_num [mcPercentiles, mcCumRets, mcDraw, npPercentile, quantileLin,
      List.range_succ, List.insertionSort]
  · norm_num [mcPercentiles, mcCumRets, mcDraw, npPercentile, quantileLin,
      List.range_succ, List.insertionSort]

/-- C2 (amended): the bootstrap percentiles are a deterministic pure
function of the historical sample, the horizon, the simulation count and
the generator's drawn index stream: whenever two generators agree
(modulo the sample length) on the `H * N` indices actually consumed, the
reported percentile triples are identical. Reproducibility therefore
holds exactly when the generator state is reproduced — which the
unseeded source construction does not let a caller do. -/
theorem mc_percentiles_pure_in_draws (rets : List ℚ) (H N : Nat)
    (gen gen2 : Nat → Nat)
    (hagree : ∀ j, j < H * N → gen j % rets.length = gen2 j % rets.length) :
    mcPercentiles rets H N gen = mcPercentiles rets H N gen2 := by
  have hcum : mcCumRets rets H N gen = mcCumRets rets H N gen2 := by
    rw [mcCumRets, mcCumRets]
    apply List.map_congr_left
    intro c hc
    have hcN : c < N := List.mem_range.mp hc
    congr 1
    congr 1
    apply List.map_congr_left
    intro h hh
    have hhH : h < H := List.mem_range.mp hh
    have hidx : h * N + c < H * N := by
      calc h * N + c < h * N + N := by omega
      _ = (h + 1) * N := by ring
      _ ≤ H * N := Nat.mul_le_mul_right N (by omega)
    rw [mcDraw, mcDraw, hagree (h * N + c) hidx]
  rw [mcPercentiles, mcPercentiles, hcum]

/-- C2 witness: the amended determinism statement applied to two
generators that agree on all consumed draws. -/
theorem mc_percentiles_pure_in_draws_witness :
    (∀ j, j < 1 * 1 → (fun _ : Nat => 0) j % ([0, 1] : List ℚ).length =
        (fun _ : Nat => 0) j % ([0, 1] : List ℚ).length) ∧
      mcPercentiles [0, 1] 1 1 (fun _ => 0) =
        mcPercentiles [0, 1] 1 1 (fun _ => 0) :=
  ⟨fun j _ => rfl, mc_percentiles_pure_in_draws [0, 1] 1 1 (fun _ => 0)
    (fun _ => 0) (fun j _ => rfl)⟩

/-! ### Seasonality aggregation

Gold page lines 211-222:
`monthly_ret = ret.resample("M").apply(lambda x: (1 + x).prod() - 1)`,
`month_stats = monthly_ret.groupby(monthly_ret.index.month).agg(["mean","std","count"])`.
A dated observation is modelled as a pair of a linear month index
`12 * year + (month - 1)` and the (possibly NaN) daily return; distinct
calendar months map to distinct indices, consecutive months to
consecutive indices, and the calendar month-of-year of index `t` is
`t % 12`. Pandas `resample("M")` emits one bin for EVERY calendar month
in the closed span from the first to the last index entry, including
months with no observations (whose empty compounded product gives
`1 - 1 = 0`), and `prod` skips NaN. -/

def monthsOf (entries : List (Nat × Option ℚ)) : List Nat :=
  entries.map Prod.fst

def listMinNat : List Nat → Nat
  | [] => 0
  | x :: tl => tl.foldl Nat.min x

def listMaxNat : List Nat → Nat
  | [] => 0
  | x :: tl => tl.foldl Nat.max x

/-- Aggregation `(1 + x).prod() - 1` over the daily returns of calendar month `m`
(NaN skipped, empty product = 1). -/
def monthCompound (entries : List (Nat × Option ℚ)) (m : Nat) : ℚ :=
  ((((entries.filter (fun e => e.1 == m)).filterMap
      (fun e => e.2)).map (fun r => 1 + r)).prod) - 1

/-- Column `monthly_ret`: one compounded monthly return per calendar month in
the closed span of the index. -/
def resampleMonthly (entries : List (Nat × Option ℚ)) : List (Nat × ℚ) :=
  match entries with
  | [] => []
  | _ :: _ =>
    (List.range (listMaxNat (monthsOf entries) + 1 -
        listMinNat (monthsOf entries))).map
      (fun k => (listMinNat (monthsOf entries) + k,
        monthCompound entries (listMinNat (monthsOf entries) + k)))

/-- The `count` column of `month_stats` for month-of-year bucket `b`
(pandas `groupby(index.month)`; `b` ranges over `0..11` in the linear
encoding). -/
def monthBucketCount (entries : List (Nat × Option ℚ)) (b : Nat) : Nat :=
  ((resampleMonthly entries).filter (fun e => e.1 % 12 == b)).length

theorem sum_count_mod12 (l : List (Nat × ℚ)) :
    ∑ b ∈ Finset.range 12, (l.filter (fun e => e.1 % 12 == b)).length =
      l.length := by
  induction l with
  | nil => simp
  | cons x tl ih =>
    have hsplit : ∀ b, ((x :: tl).filter (fun e => e.1 % 12 == b)).length =
        (tl.filter (fun e => e.1 % 12 == b)).length +
          (if x.1 % 12 = b then 1 else 0) := by
      intro b
      rw [List.filter_cons]
      by_cases hxb : x.1 % 12 = b
      · rw [if_pos (by simpa using hxb), if_pos hxb]
        simp
      · rw [if_neg (by simpa using hxb), if_neg hxb]
        omega
    rw [Finset.sum_congr rfl (fun b _ => hsplit b), Finset.sum_add_distrib, ih]
    rw [Finset.sum_ite_eq (Finset.range 12) (x.1 % 12) (fun _ => 1)]
    rw [if_pos (Finset.mem_range.mpr (Nat.mod_lt _ (by norm_num)))]
    simp

/-- C6 (counterexample): the input with one observation in month 0 and
one in month 2 (e.g. January and March 2020, with February absent) has 2
distinct calendar months present, but `resample("M")` emits bins for all
3 months of the span, so the month-bucket sample counts sum to 3, not
2. -/
theorem month_bucket_gap_cex :
    ∑ b ∈ Finset.range 12,
        monthBucketCount [(0, some 0), (2, some 0)] b = 3 ∧
      ((monthsOf [(0, some 0), (2, some 0)]).dedup).length = 2 ∧
      (3 : Nat) ≠ 2 := by
  refine ⟨?_, by decide, by decide⟩
  have h3 : ∀ b, monthBucketCount [(0, some 0), (2, some 0)] b =
      ((resampleMonthly [(0, some 0), (2, some 0)]).filter
        (fun e => e.1 % 12 == b)).length := fun b => rfl
  rw [Finset.sum_congr rfl (fun b _ => h3 b), sum_count_mod12]
  decide

/-- C6 (amended): for every nonempty input series, the sum of sample
counts across the 12 month-of-year buckets equals the number of calendar
months in the closed span from the first to the last month of the index
(equal to the number of distinct months present only when no calendar
month inside the span is empty). -/
theorem month_bucket_counts_cover_span (entries : List (Nat × Option ℚ))
    (hne : entries ≠ []) :
    ∑ b ∈ Finset.range 12, monthBucketCount entries b =
      listMaxNat (monthsOf entries) + 1 - listMinNat (monthsOf entries) := by
  have h3 : ∀ b, monthBucketCount entries b =
      ((resampleMonthly entries).filter (fun e => e.1 % 12 == b)).length :=
    fun b => rfl
  rw [Finset.sum_congr rfl (fun b _ => h3 b), sum_count_mod12]
  cases entries with
  | nil => exact absurd rfl hne
  | cons e tl =>
    rw [resampleMonthly]
    simp

/-- C6 witness: the amended count identity on the two-month-gap input. -/
theorem month_bucket_counts_cover_span_witness :
    ([(0, some 0), (2, some 0)] : List (Nat × Option ℚ)) ≠ [] ∧
      ∑ b ∈ Finset.range 12,
          monthBucketCount [(0, some 0), (2, some 0)] b =
        listMaxNat (monthsOf [(0, some 0), (2, some 0)]) + 1 -
          listMinNat (monthsOf [(0, some 0), (2, some 0)]) :=
  ⟨by simp, month_bucket_counts_cover_span [(0, some 0), (2, some 0)] (by simp)⟩

/-! ### Distribution fit on a degenerate sample

HHIS page lines 284-299 (Bell Curve): after the `returns.empty` guard,
the section calls `scipy.stats.gaussian_kde(returns)` and only then
evaluates the normal PDF `1/(σ√(2π)) · exp(-0.5((x-μ)/σ)²)`.
`gaussian_kde` factorises the sample covariance; for a zero-variance
(constant) sample the covariance matrix is singular and the constructor
raises the library's `numpy.linalg.LinAlgError` — an untyped exception
the page does not catch. No `DegenerateDistributionError` (or any custom
exception type) exists anywhere in the repository; that constructor
below comes from the spec's error taxonomy and is produced by no code
path. (In the CSV-upload variant, `03_🔎_Stock_Analysis.py` lines 95-99,
nothing is raised at all: `σ = 0` flows into the division and produces
non-finite overlay values.) -/

inductive FitError where
  | emptyData : FitError
  | linAlgSingular : FitError
  | degenerateDistribution : FitError
deriving DecidableEq

/-- Model of `returns.mean()`. -/
def sampleMean (xs : List ℚ) : ℚ :=
  xs.sum / xs.length

/-- The numerator `Σ (x - mean)²` of the sample variance; it is zero
exactly when the sample is constant, the condition under which
`gaussian_kde`'s covariance factorisation fails. -/
def sampleVarNum (xs : List ℚ) : ℚ :=
  (xs.map (fun x => (x - sampleMean xs) ^ 2)).sum

/-- The Bell Curve section's distribution fit: empty input is caught by
the `returns.empty` guard (warning, no chart); a constant sample makes
the `gaussian_kde` constructor raise the singular-matrix `LinAlgError`;
otherwise the section computes the `(μ, σ²)` normal-overlay parameters
(the variance is returned instead of `σ` to stay in exact rationals). -/
def bellCurveFit (xs : List ℚ) : Except FitError (ℚ × ℚ) :=
  if xs.length = 0 then Except.error FitError.emptyData
  else if sampleVarNum xs = 0 then Except.error FitError.linAlgSingular
  else Except.ok (sampleMean xs, sampleVarNum xs / ((xs.length : ℚ) - 1))

/-- C7 (counterexample): fitting the degenerate two-point sample
`[1/100, 1/100]` (zero standard deviation, a single unique value) fails
with the KDE library's singular-matrix error, which is not a
`DegenerateDistributionError` — no such typed error is raised anywhere. -/
theorem degenerate_fit_no_typed_error :
    bellCurveFit [1 / 100, 1 / 100] = Except.error FitError.linAlgSingular ∧
      (Except.error FitError.linAlgSingular : Except FitError (ℚ × ℚ)) ≠
        Except.error FitError.degenerateDistribution := by
  constructor
  · rw [bellCurveFit]
    rw [if_neg (by norm_num), if_pos (by norm_num [sampleVarNum, sampleMean])]
  · simp

/-- C7 (amended): on any degenerate sample with at least two points —
zero variance, equivalently a single unique value — the Bell Curve
section fails, but with the untyped singular-matrix `LinAlgError` raised
by the KDE library rather than a `DegenerateDistributionError`. -/
theorem degenerate_fit_singular (xs : List ℚ) (hlen : 2 ≤ xs.length)
    (hvar : sampleVarNum xs = 0) :
    bellCurveFit xs = Except.error FitError.linAlgSingular := by
  rw [bellCurveFit, if_neg (by omega), if_pos hvar]

/-- C7 witness: the amended failure mode at the concrete degenerate
sample `[1/100, 1/100]`. -/
theorem degenerate_fit_singular_witness :
    2 ≤ ([1 / 100, 1 / 100] : List ℚ).length ∧
      sampleVarNum [1 / 100, 1 / 100] = 0 ∧
      bellCurveFit [1 / 100, 1 / 100] = Except.error FitError.linAlgSingular :=
  ⟨by norm_num, by norm_num [sampleVarNum, sampleMean],
    degenerate_fit_singular [1 / 100, 1 / 100] (by norm_num)
      (by norm_num [sampleVarNum, sampleMean])⟩

end LiveData
